import Mathlib

/-!
Verification development for the anicet repository (tools/arm64.inspect.py and
tools/auxv.print.py).

The instruction classifier in arm64.inspect.py tests Python regular
expressions against lines of textual disassembly.  We embed the exact regex
subset those patterns use (literal characters, character classes, `\s`, `.`,
alternation `(a|b)`, concatenation, `+`, `*`) as a small derivative-based
matcher, together with a relational semantics `RMatch` and correctness proofs,
so that `re.search` (match anywhere) and anchored `re.search(r"^...")`
(match a prefix) can be reasoned about both computationally and semantically.
-/

namespace Anicet

/-- Regular-expression abstract syntax for the pattern subset used by the
repository.  `cls` carries a character predicate (covers literal characters,
`[...]` classes, `\s`, `\d`-style classes and `.`). -/
inductive RE : Type where
  | empt : RE
  | eps : RE
  | cls : (Char → Bool) → RE
  | seq : RE → RE → RE
  | alt : RE → RE → RE
  | star : RE → RE

/-- Does the regex accept the empty string? -/
def nullable : RE → Bool
  | .empt => false
  | .eps => true
  | .cls _ => false
  | .seq a b => nullable a && nullable b
  | .alt a b => nullable a || nullable b
  | .star _ => true

/-- Brzozowski derivative of a regex by one character. -/
def deriv : RE → Char → RE
  | .empt, _ => .empt
  | .eps, _ => .empt
  | .cls p, c => if p c then .eps else .empt
  | .seq a b, c =>
      if nullable a then .alt (.seq (deriv a c) b) (deriv b c)
      else .seq (deriv a c) b
  | .alt a b, c => .alt (deriv a c) (deriv b c)
  | .star r, c => .seq (deriv r c) (.star r)

/-- Does the regex match the whole character list? -/
def rmatch (r : RE) : List Char → Bool
  | [] => nullable r
  | c :: s => rmatch (deriv r c) s

/-- Does the regex match some prefix of the character list?  This is the
semantics of Python `re.search` for a pattern anchored with `^` (without
`re.MULTILINE`, `^` only matches at the start of the string). -/
def matchPre (r : RE) : List Char → Bool
  | [] => nullable r
  | c :: s => nullable r || matchPre (deriv r c) s

/-- Does the regex match some contiguous substring?  This is the semantics of
Python `re.search` for an unanchored pattern. -/
def reSearch (r : RE) : List Char → Bool
  | [] => nullable r
  | c :: s => matchPre r (c :: s) || reSearch r s

/-- Relational semantics: `RMatch r s` holds when `r` matches exactly `s`. -/
inductive RMatch : RE → List Char → Prop where
  | eps : RMatch .eps []
  | cls {p : Char → Bool} {c : Char} : p c = true → RMatch (.cls p) [c]
  | seq {a b : RE} {s t : List Char} :
      RMatch a s → RMatch b t → RMatch (.seq a b) (s ++ t)
  | altL {a b : RE} {s : List Char} : RMatch a s → RMatch (.alt a b) s
  | altR {a b : RE} {s : List Char} : RMatch b s → RMatch (.alt a b) s
  | starNil {r : RE} : RMatch (.star r) []
  | starCons {r : RE} {s t : List Char} :
      RMatch r s → RMatch (.star r) t → RMatch (.star r) (s ++ t)

@[simp] theorem rmatch_empt_iff {s : List Char} : RMatch .empt s ↔ False := by
  constructor
  · intro h; cases h
  · intro h; exact h.elim

@[simp] theorem rmatch_eps_iff {s : List Char} : RMatch .eps s ↔ s = [] := by
  constructor
  · intro h; cases h; rfl
  · intro h; subst h; exact .eps

@[simp] theorem rmatch_cls_iff {p : Char → Bool} {s : List Char} :
    RMatch (.cls p) s ↔ ∃ c, s = [c] ∧ p c = true := by
  constructor
  · intro h; cases h with
    | cls hc => exact ⟨_, rfl, hc⟩
  · rintro ⟨c, rfl, hc⟩; exact .cls hc

@[simp] theorem rmatch_seq_iff {a b : RE} {s : List Char} :
    RMatch (.seq a b) s ↔ ∃ u v, s = u ++ v ∧ RMatch a u ∧ RMatch b v := by
  constructor
  · intro h; cases h with
    | seq ha hb => exact ⟨_, _, rfl, ha, hb⟩
  · rintro ⟨u, v, rfl, ha, hb⟩; exact .seq ha hb

@[simp] theorem rmatch_alt_iff {a b : RE} {s : List Char} :
    RMatch (.alt a b) s ↔ RMatch a s ∨ RMatch b s := by
  constructor
  · intro h; cases h with
    | altL h => exact Or.inl h
    | altR h => exact Or.inr h
  · rintro (h | h)
    · exact .altL h
    · exact .altR h

theorem nullable_iff {r : RE} : nullable r = true ↔ RMatch r [] := by
  induction r with
  | empt => simp [nullable]
  | eps => simp [nullable]
  | cls p => simp [nullable]
  | seq a b iha ihb =>
      simp only [nullable, Bool.and_eq_true, iha, ihb, rmatch_seq_iff]
      constructor
      · rintro ⟨ha, hb⟩; exact ⟨[], [], rfl, ha, hb⟩
      · rintro ⟨u, v, huv, ha, hb⟩
        rcases List.append_eq_nil.mp huv.symm with ⟨rfl, rfl⟩
        exact ⟨ha, hb⟩
  | alt a b iha ihb =>
      simp [nullable, iha, ihb]
  | star r ih =>
      simp only [nullable, true_iff]
      exact .starNil

/-- Inversion for star on a nonempty string: the first matched block can be
taken to begin with the leading character. -/
theorem star_cons_inv {r : RE} {c : Char} {s : List Char}
    (h : RMatch (.star r) (c :: s)) :
    ∃ u v, s = u ++ v ∧ RMatch r (c :: u) ∧ RMatch (.star r) v := by
  generalize hq : RE.star r = q at h
  generalize hcs : c :: s = w at h
  induction h with
  | eps => cases hq
  | cls _ => cases hq
  | seq _ _ _ _ => cases hq
  | altL _ _ => cases hq
  | altR _ _ => cases hq
  | starNil => cases hcs
  | starCons h1 h2 ih1 ih2 =>
      cases hq
      rename_i s1 t1
      cases s1 with
      | nil =>
          simp only [List.nil_append] at hcs
          exact ih2 rfl hcs
      | cons c1 s1 =>
          cases hcs
          exact ⟨s1, t1, rfl, h1, h2⟩

theorem deriv_iff {r : RE} {c : Char} {s : List Char} :
    RMatch (deriv r c) s ↔ RMatch r (c :: s) := by
  induction r generalizing s with
  | empt =>
      simp [deriv]
  | eps =>
      simp [deriv]
  | cls p =>
      simp only [deriv]
      by_cases hp : p c = true
      · rw [if_pos hp]
        simp only [rmatch_eps_iff, rmatch_cls_iff]
        constructor
        · rintro rfl; exact ⟨c, rfl, hp⟩
        · rintro ⟨c1, hc1, _⟩
          exact (List.cons_eq_cons.mp hc1).2
      · rw [if_neg hp]
        simp only [rmatch_empt_iff, false_iff, rmatch_cls_iff]
        rintro ⟨c1, hc1, hpc1⟩
        rcases List.cons_eq_cons.mp hc1 with ⟨rfl, rfl⟩
        exact hp hpc1
  | seq a b iha ihb =>
      by_cases hn : nullable a = true
      · simp only [deriv, hn, if_pos, rmatch_alt_iff, rmatch_seq_iff, iha, ihb]
        constructor
        · rintro (⟨u, v, rfl, ha, hb⟩ | hb)
          · exact ⟨c :: u, v, rfl, ha, hb⟩
          · exact ⟨[], c :: s, rfl, nullable_iff.mp hn, hb⟩
        · rintro ⟨u, v, huv, ha, hb⟩
          cases u with
          | nil =>
              simp only [List.nil_append] at huv
              subst huv
              exact Or.inr hb
          | cons c1 u =>
              cases huv
              exact Or.inl ⟨u, v, rfl, ha, hb⟩
      · simp only [deriv, hn, if_neg, rmatch_seq_iff, iha, Bool.false_eq_true,
          not_false_eq_true]
        constructor
        · rintro ⟨u, v, rfl, ha, hb⟩
          exact ⟨c :: u, v, rfl, ha, hb⟩
        · rintro ⟨u, v, huv, ha, hb⟩
          cases u with
          | nil =>
              exact absurd (nullable_iff.mpr ha) (by simpa using hn)
          | cons c1 u =>
              cases huv
              exact ⟨u, v, rfl, ha, hb⟩
  | alt a b iha ihb =>
      simp [deriv, iha, ihb]
  | star r ih =>
      simp only [deriv, rmatch_seq_iff, ih]
      constructor
      · rintro ⟨u, v, rfl, hr, hst⟩
        exact RMatch.starCons (s := c :: u) hr hst
      · intro h
        rcases star_cons_inv h with ⟨u, v, rfl, hr, hst⟩
        exact ⟨u, v, rfl, hr, hst⟩

theorem rmatch_iff {r : RE} {s : List Char} : rmatch r s = true ↔ RMatch r s := by
  induction s generalizing r with
  | nil => simpa [rmatch] using nullable_iff
  | cons c s ih => simpa [rmatch, ih] using deriv_iff

/-- `matchPre` is correct: it decides whether some prefix is matched. -/
theorem matchPre_iff {r : RE} {s : List Char} :
    matchPre r s = true ↔ ∃ u v, s = u ++ v ∧ RMatch r u := by
  induction s generalizing r with
  | nil =>
      simp only [matchPre, nullable_iff]
      constructor
      · intro h; exact ⟨[], [], rfl, h⟩
      · rintro ⟨u, v, huv, hu⟩
        rcases List.append_eq_nil.mp huv.symm with ⟨rfl, rfl⟩
        exact hu
  | cons c s ih =>
      simp only [matchPre, Bool.or_eq_true, nullable_iff, ih, deriv_iff]
      constructor
      · rintro (h | ⟨u, v, rfl, hu⟩)
        · exact ⟨[], c :: s, rfl, h⟩
        · exact ⟨c :: u, v, rfl, hu⟩
      · rintro ⟨u, v, huv, hu⟩
        cases u with
        | nil =>
            simp only [List.nil_append] at huv
            subst huv
            exact Or.inl hu
        | cons c1 u =>
            cases huv
            exact Or.inr ⟨u, v, rfl, hu⟩

/-- `reSearch` is correct: it decides whether some contiguous substring is
matched, i.e. Python `re.search`. -/
theorem reSearch_iff {r : RE} {s : List Char} :
    reSearch r s = true ↔ ∃ u m v, s = u ++ m ++ v ∧ RMatch r m := by
  induction s generalizing r with
  | nil =>
      simp only [reSearch, nullable_iff]
      constructor
      · intro h; exact ⟨[], [], [], rfl, h⟩
      · rintro ⟨u, m, v, humv, hm⟩
        rcases List.append_eq_nil.mp humv.symm with ⟨h1, rfl⟩
        rcases List.append_eq_nil.mp h1 with ⟨rfl, rfl⟩
        exact hm
  | cons c s ih =>
      simp only [reSearch, Bool.or_eq_true, matchPre_iff, ih]
      constructor
      · rintro (⟨u, v, huv, hu⟩ | ⟨u, m, v, rfl, hm⟩)
        · exact ⟨[], u, v, by simpa using huv, hu⟩
        · exact ⟨c :: u, m, v, rfl, hm⟩
      · rintro ⟨u, m, v, humv, hm⟩
        cases u with
        | nil =>
            simp only [List.nil_append] at humv
            exact Or.inl ⟨m, v, humv, hm⟩
        | cons c1 u =>
            cases humv
            exact Or.inr ⟨u, m, v, rfl, hm⟩

/-! ### Pattern construction helpers -/

/-- Python `\s` (the six ASCII whitespace characters; no `re.UNICODE` escapes
occur in the source lines the tool handles). -/
def isPySpace (c : Char) : Bool :=
  c == ' ' || c == '\t' || c == '\n' || c == '\x0b' || c == '\x0c' || c == '\r'

/-- A literal string, one `cls` per character. -/
def litRE (s : String) : RE :=
  s.data.foldr (fun c r => RE.seq (RE.cls (fun x => x == c)) r) RE.eps

/-- A character class `[...]` listing its members. -/
def clsOf (s : String) : RE := RE.cls (fun c => s.data.contains c)

/-- `\s` as a regex atom. -/
def wsRE : RE := RE.cls isPySpace

/-- `.` — any character except newline (no `re.DOTALL`). -/
def dotRE : RE := RE.cls (fun c => c != '\n')

/-- `r+` as `r · r*`. -/
def rePlus (r : RE) : RE := RE.seq r (RE.star r)

/-- A group of alternatives `(a|b|...)`. -/
def altsRE : List RE → RE
  | [] => RE.empt
  | [r] => r
  | r :: rs => RE.alt r (altsRE rs)

/-- Sequencing of a list of atoms. -/
def seqRE : List RE → RE
  | [] => RE.eps
  | [r] => r
  | r :: rs => RE.seq r (seqRE rs)

/-! ### The pattern registry (INSPECT_ARRAY of tools/arm64.inspect.py)

Each definition transliterates the corresponding Python regex literal. -/

/-- `\s(fadd|fmul|ld1|st1|saddl|uaddl|sqadd|movi|add\s+v|sub\s+v|mul\s+v|ld[234]|st[234]|umull|smull)` -/
def re_asimd : RE :=
  RE.seq wsRE (altsRE [litRE "fadd", litRE "fmul", litRE "ld1", litRE "st1",
    litRE "saddl", litRE "uaddl", litRE "sqadd", litRE "movi",
    seqRE [litRE "add", rePlus wsRE, litRE "v"],
    seqRE [litRE "sub", rePlus wsRE, litRE "v"],
    seqRE [litRE "mul", rePlus wsRE, litRE "v"],
    seqRE [litRE "ld", clsOf "234"], seqRE [litRE "st", clsOf "234"],
    litRE "umull", litRE "smull"])

/-- `\s(fadd\s+h|fmul\s+h|fmla\s+h|fabs\s+h|fneg\s+h|fsqrt\s+h)` -/
def re_asimdhp : RE :=
  RE.seq wsRE (altsRE [
    seqRE [litRE "fadd", rePlus wsRE, litRE "h"],
    seqRE [litRE "fmul", rePlus wsRE, litRE "h"],
    seqRE [litRE "fmla", rePlus wsRE, litRE "h"],
    seqRE [litRE "fabs", rePlus wsRE, litRE "h"],
    seqRE [litRE "fneg", rePlus wsRE, litRE "h"],
    seqRE [litRE "fsqrt", rePlus wsRE, litRE "h"]])

/-- `\s(fmlal|fmlsl)` -/
def re_asimdfhm : RE := RE.seq wsRE (altsRE [litRE "fmlal", litRE "fmlsl"])

/-- `\s(sdot|udot)` -/
def re_asimddp : RE := RE.seq wsRE (altsRE [litRE "sdot", litRE "udot"])

/-- `\s(sqrdmlah|sqrdmlsh)` -/
def re_asimdrdm : RE := RE.seq wsRE (altsRE [litRE "sqrdmlah", litRE "sqrdmlsh"])

/-- `\s(smmla|ummla|usmmla)` -/
def re_i8mm : RE := RE.seq wsRE (altsRE [litRE "smmla", litRE "ummla", litRE "usmmla"])

/-- `\s(bfdot|bfmmla|bfcvt)` -/
def re_bf16 : RE := RE.seq wsRE (altsRE [litRE "bfdot", litRE "bfmmla", litRE "bfcvt"])

/-- `\s(bfmlalb|bfmlalt)` -/
def re_bf16fml : RE := RE.seq wsRE (altsRE [litRE "bfmlalb", litRE "bfmlalt"])

/-- `\sz[0-9]+\.` -/
def re_sve : RE :=
  RE.seq wsRE (seqRE [litRE "z", rePlus (clsOf "0123456789"), litRE "."])

/-- `\s(sqrdmlah\s+z|sqrdmlsh\s+z|match|nmatch|histcnt|histseg|addhnb|raddhnb)` -/
def re_sve2 : RE :=
  RE.seq wsRE (altsRE [
    seqRE [litRE "sqrdmlah", rePlus wsRE, litRE "z"],
    seqRE [litRE "sqrdmlsh", rePlus wsRE, litRE "z"],
    litRE "match", litRE "nmatch", litRE "histcnt", litRE "histseg",
    litRE "addhnb", litRE "raddhnb"])

/-- `\s(smmla\s+z|ummla\s+z|usmmla\s+z)` -/
def re_svei8mm : RE :=
  RE.seq wsRE (altsRE [
    seqRE [litRE "smmla", rePlus wsRE, litRE "z"],
    seqRE [litRE "ummla", rePlus wsRE, litRE "z"],
    seqRE [litRE "usmmla", rePlus wsRE, litRE "z"]])

/-- `\s(bfdot\s+z|bfmmla\s+z|bfcvt\s+z)` -/
def re_svebf16 : RE :=
  RE.seq wsRE (altsRE [
    seqRE [litRE "bfdot", rePlus wsRE, litRE "z"],
    seqRE [litRE "bfmmla", rePlus wsRE, litRE "z"],
    seqRE [litRE "bfcvt", rePlus wsRE, litRE "z"]])

/-- `\s(aesd\s+z|aese\s+z|aesimc\s+z|aesmc\s+z)` -/
def re_sveaes : RE :=
  RE.seq wsRE (altsRE [
    seqRE [litRE "aesd", rePlus wsRE, litRE "z"],
    seqRE [litRE "aese", rePlus wsRE, litRE "z"],
    seqRE [litRE "aesimc", rePlus wsRE, litRE "z"],
    seqRE [litRE "aesmc", rePlus wsRE, litRE "z"]])

/-- `\s(pmull\s+z)` -/
def re_svepmull : RE :=
  RE.seq wsRE (seqRE [litRE "pmull", rePlus wsRE, litRE "z"])

/-- `\s(bext|bdep|bgrp)` -/
def re_svebitperm : RE := RE.seq wsRE (altsRE [litRE "bext", litRE "bdep", litRE "bgrp"])

/-- `\s(rax1|bcax|eor3|xar)` -/
def re_svesha3 : RE :=
  RE.seq wsRE (altsRE [litRE "rax1", litRE "bcax", litRE "eor3", litRE "xar"])

/-- `\s(sm4e\s+z|sm4ekey\s+z)` -/
def re_svesm4 : RE :=
  RE.seq wsRE (altsRE [
    seqRE [litRE "sm4e", rePlus wsRE, litRE "z"],
    seqRE [litRE "sm4ekey", rePlus wsRE, litRE "z"]])

/-- `\s(fcvt\s+h|fadd\s+h|fmul\s+h|fdiv\s+h|fsub\s+h)` -/
def re_fphp : RE :=
  RE.seq wsRE (altsRE [
    seqRE [litRE "fcvt", rePlus wsRE, litRE "h"],
    seqRE [litRE "fadd", rePlus wsRE, litRE "h"],
    seqRE [litRE "fmul", rePlus wsRE, litRE "h"],
    seqRE [litRE "fdiv", rePlus wsRE, litRE "h"],
    seqRE [litRE "fsub", rePlus wsRE, litRE "h"]])

/-- `\s(fcmla|fcadd)` -/
def re_fcma : RE := RE.seq wsRE (altsRE [litRE "fcmla", litRE "fcadd"])

/-- `\s(frint32x|frint64x|frint32z|frint64z)` -/
def re_frint : RE :=
  RE.seq wsRE (altsRE [litRE "frint32x", litRE "frint64x", litRE "frint32z",
    litRE "frint64z"])

/-- `\s(aese|aesd|aesmc|aesimc)` -/
def re_aes : RE :=
  RE.seq wsRE (altsRE [litRE "aese", litRE "aesd", litRE "aesmc", litRE "aesimc"])

/-- `\s(pmull)` -/
def re_pmull : RE := RE.seq wsRE (litRE "pmull")

/-- `\s(sha1[cpmhsu])` -/
def re_sha1 : RE := RE.seq wsRE (seqRE [litRE "sha1", clsOf "cpmhsu"])

/-- `\s(sha256[hsu]|sha512[hsu])` -/
def re_sha2 : RE :=
  RE.seq wsRE (altsRE [seqRE [litRE "sha256", clsOf "hsu"],
    seqRE [litRE "sha512", clsOf "hsu"]])

/-- `\s(rax1|bcax|eor3|xar)` -/
def re_sha3 : RE :=
  RE.seq wsRE (altsRE [litRE "rax1", litRE "bcax", litRE "eor3", litRE "xar"])

/-- `\s(sha512[hsu])` -/
def re_sha512 : RE := RE.seq wsRE (seqRE [litRE "sha512", clsOf "hsu"])

/-- `\s(sm3ss1|sm3tt[12][ab]|sm3partw[12])` -/
def re_sm3 : RE :=
  RE.seq wsRE (altsRE [litRE "sm3ss1",
    seqRE [litRE "sm3tt", clsOf "12", clsOf "ab"],
    seqRE [litRE "sm3partw", clsOf "12"]])

/-- `\s(sm4e|sm4ekey)` -/
def re_sm4 : RE := RE.seq wsRE (altsRE [litRE "sm4e", litRE "sm4ekey"])

/-- `\s(ldadd|ldclr|ldeor|ldset|ldsmax|ldsmin|ldumax|ldumin|cas|casp|swp)` -/
def re_atomics : RE :=
  RE.seq wsRE (altsRE [litRE "ldadd", litRE "ldclr", litRE "ldeor", litRE "ldset",
    litRE "ldsmax", litRE "ldsmin", litRE "ldumax", litRE "ldumin",
    litRE "cas", litRE "casp", litRE "swp"])

/-- `\sdc\s+cvap` -/
def re_dcpop : RE := RE.seq wsRE (seqRE [litRE "dc", rePlus wsRE, litRE "cvap"])

/-- `\sdc\s+cvadp` -/
def re_dcpodp : RE := RE.seq wsRE (seqRE [litRE "dc", rePlus wsRE, litRE "cvadp"])

/-- `\s(stset|stclr)` -/
def re_uscat : RE := RE.seq wsRE (altsRE [litRE "stset", litRE "stclr"])

/-- `\s(ldapr|stlr)` -/
def re_lrcpc : RE := RE.seq wsRE (altsRE [litRE "ldapr", litRE "stlr"])

/-- `\s(ldapur|stlur)` -/
def re_ilrcpc : RE := RE.seq wsRE (altsRE [litRE "ldapur", litRE "stlur"])

/-- `\sdgh` -/
def re_dgh : RE := RE.seq wsRE (litRE "dgh")

/-- `\ssb` -/
def re_sb : RE := RE.seq wsRE (litRE "sb")

/-- `\s(wfet|wfit)` -/
def re_wfxt : RE := RE.seq wsRE (altsRE [litRE "wfet", litRE "wfit"])

/-- `\s(pacia|pacib|autia|autib)` -/
def re_paca : RE :=
  RE.seq wsRE (altsRE [litRE "pacia", litRE "pacib", litRE "autia", litRE "autib"])

/-- `\s(pacda|pacdb|pacga|autda|autdb|autga)` -/
def re_pacg : RE :=
  RE.seq wsRE (altsRE [litRE "pacda", litRE "pacdb", litRE "pacga",
    litRE "autda", litRE "autdb", litRE "autga"])

/-- `\sbti` -/
def re_bti : RE := RE.seq wsRE (litRE "bti")

/-- `\s(setf8|setf16|rmif)` -/
def re_flagm : RE := RE.seq wsRE (altsRE [litRE "setf8", litRE "setf16", litRE "rmif"])

/-- `\s(axflag|xaflag)` -/
def re_flagm2 : RE := RE.seq wsRE (altsRE [litRE "axflag", litRE "xaflag"])

/-- `\sfjcvtzs` -/
def re_jscvt : RE := RE.seq wsRE (litRE "fjcvtzs")

/-- `\scrc32[bhwxc]` -/
def re_crc32 : RE := RE.seq wsRE (seqRE [litRE "crc32", clsOf "bhwxc"])

/-- `\smsr\s+dit` -/
def re_dit : RE := RE.seq wsRE (seqRE [litRE "msr", rePlus wsRE, litRE "dit"])

/-- `\smrs\s+.*,\s*id_` -/
def re_cpuid : RE :=
  RE.seq wsRE (seqRE [litRE "mrs", rePlus wsRE, RE.star dotRE, litRE ",",
    RE.star wsRE, litRE "id_"])

/-- `\sevtstrm` -/
def re_evtstrm : RE := RE.seq wsRE (litRE "evtstrm")

/-- INSPECT_ARRAY: the ordered registry of (category name, pattern). -/
def INSPECT_ARRAY : List (String × RE) :=
  [("asimd", re_asimd), ("asimdhp", re_asimdhp), ("asimdfhm", re_asimdfhm),
   ("asimddp", re_asimddp), ("asimdrdm", re_asimdrdm), ("i8mm", re_i8mm),
   ("bf16", re_bf16), ("bf16fml", re_bf16fml), ("sve", re_sve),
   ("sve2", re_sve2), ("svei8mm", re_svei8mm), ("svebf16", re_svebf16),
   ("sveaes", re_sveaes), ("svepmull", re_svepmull), ("svebitperm", re_svebitperm),
   ("svesha3", re_svesha3), ("svesm4", re_svesm4), ("fphp", re_fphp),
   ("fcma", re_fcma), ("frint", re_frint), ("aes", re_aes),
   ("pmull", re_pmull), ("sha1", re_sha1), ("sha2", re_sha2),
   ("sha3", re_sha3), ("sha512", re_sha512), ("sm3", re_sm3),
   ("sm4", re_sm4), ("atomics", re_atomics), ("dcpop", re_dcpop),
   ("dcpodp", re_dcpodp), ("uscat", re_uscat), ("lrcpc", re_lrcpc),
   ("ilrcpc", re_ilrcpc), ("dgh", re_dgh), ("sb", re_sb),
   ("wfxt", re_wfxt), ("paca", re_paca), ("pacg", re_pacg),
   ("bti", re_bti), ("flagm", re_flagm), ("flagm2", re_flagm2),
   ("jscvt", re_jscvt), ("crc32", re_crc32), ("dit", re_dit),
   ("cpuid", re_cpuid), ("evtstrm", re_evtstrm)]

/-! ### The instruction classifier (BinaryInspector of tools/arm64.inspect.py) -/

/-- The instruction-line discriminator `^\s+[0-9a-f]+:` (without the `^`;
`matchPre` supplies the anchoring). -/
def re_insn : RE :=
  seqRE [rePlus wsRE, rePlus (clsOf "0123456789abcdef"), litRE ":"]

/-- Python `str.split("\n")` on a character list. -/
def splitOnNl : List Char → List (List Char)
  | [] => [[]]
  | c :: cs =>
      let r := splitOnNl cs
      if c = '\n' then [] :: r
      else
        match r with
        | [] => [[c]]
        | h :: t => (c :: h) :: t

/-- `BinaryInspector.count_instructions`: split the disassembly into lines and
count the lines that match `^\s+[0-9a-f]+:` and then the category pattern. -/
def count_instructions (disasm : String) (p : RE) : Nat :=
  (splitOnNl disasm.data).countP
    (fun line => matchPre re_insn line && reSearch p line)

/-- `total_insn = self.count_instructions(disasm, r".")` in `inspect`. -/
def totalInstructions (disasm : String) : Nat := count_instructions disasm dotRE

/-- `(count * 100.0) / total_insn if total_insn > 0 else 0.0`, with the float
arithmetic modelled over `ℚ`. -/
def percentage (count total : Nat) : ℚ :=
  if 0 < total then (count * 100 : ℚ) / total else 0

/-- The per-category `(key, value)` pairs accumulated in `extension_results`
(counts cast into `ℚ` so both kinds of values live in one list). -/
def extensionResults (disasm : String) : List (String × ℚ) :=
  INSPECT_ARRAY.flatMap (fun p =>
    let c := count_instructions disasm p.2
    [(p.1 ++ "_instructions", (c : ℚ)),
     (p.1 ++ "_instructions_percentage", percentage c (totalInstructions disasm))])

/-- The fixed key list the report always carries for categories. -/
def extensionKeys : List String :=
  INSPECT_ARRAY.flatMap (fun p =>
    [p.1 ++ "_instructions", p.1 ++ "_instructions_percentage"])

/-- The category names of the registry. -/
def categoryNames : List String := INSPECT_ARRAY.map Prod.fst

/-- `detected`: categories appended when `count > 0` in `inspect`. -/
def detectedList (disasm : String) : List String :=
  (INSPECT_ARRAY.filter (fun p => decide (0 < count_instructions disasm p.2))).map
    Prod.fst

/-- `undetected`: categories appended when `count == 0` in `inspect`. -/
def undetectedList (disasm : String) : List String :=
  (INSPECT_ARRAY.filter (fun p => !decide (0 < count_instructions disasm p.2))).map
    Prod.fst

/-! ### auxv.print.py embedding

`parse_auxv` reads a raw byte buffer and decodes `(tag, value)` pairs of
`struct` format `QQ` (8-byte fields) or `II` (4-byte fields).  The format has
no byte-order marker, so `struct.unpack` uses native byte order; every target
this tool supports (aarch64, x86 family) is little-endian, and we model the
words as little-endian. -/

def SUPPORTED_ARCH_LIST : List String := ["aarch64", "x86_64", "i386", "i686"]

/-- Selected aarch64 AT_HWCAP bits, in source (insertion) order. -/
def AARCH64_HWCAP : List (Nat × String) :=
  [(0, "FP"), (1, "ASIMD"), (2, "EVTSTRM"), (3, "AES"), (4, "PMULL"),
   (5, "SHA1"), (6, "SHA2"), (7, "CRC32"), (8, "ATOMICS"), (9, "FPHP"),
   (10, "ASIMDHP"), (11, "CPUID"), (12, "ASIMDRDM"), (13, "JSCVT"),
   (14, "FCMA"), (15, "LRCPC"), (16, "DCPOP"), (17, "SHA3"), (18, "SM3"),
   (19, "SM4"), (20, "ASIMDDP"), (21, "SHA512"), (22, "SVE"),
   (23, "ASIMDFHM"), (28, "ILRCPC"), (29, "FLAGM"), (30, "SSBS"), (31, "SB")]

/-- Selected aarch64 AT_HWCAP2 bits, in source (insertion) order. -/
def AARCH64_HWCAP2 : List (Nat × String) :=
  [(0, "DCPODP"), (1, "SVE2"), (2, "SVEAES"), (3, "SVEPMULL"),
   (4, "SVEBITPERM"), (5, "SVESHA3"), (6, "SVESM4"), (7, "FLAGM2"),
   (8, "FRINT"), (9, "SVEI8MM"), (10, "SVEF32MM"), (11, "SVEF64MM"),
   (12, "SVEBF16"), (13, "I8MM"), (14, "BF16"), (15, "DGH"), (16, "RNG"),
   (17, "BTI"), (20, "MTE"), (21, "ECV"), (22, "AFP"), (23, "RPRFM"),
   (28, "MTE3"), (29, "SSELECT"), (30, "IDST")]

/-- `bits_to_names(bits, table)`: the names whose bit is set, in table order
(Python dict iteration order is insertion order). -/
def bits_to_names (bits : Nat) (table : List (Nat × String)) : List String :=
  (table.filter (fun p => decide ((bits >>> p.1) &&& 1 = 1))).map Prod.snd

/-- Lexicographic (code-point) string comparison, on character lists.  This
is the comparison Python `sorted` applies to `str` values. -/
def strLeAux : List Char → List Char → Bool
  | [], _ => true
  | _ :: _, [] => false
  | a :: as, b :: bs =>
      if a < b then true
      else if b < a then false
      else strLeAux as bs

/-- `a <= b` for Python strings. -/
def strLeb (a b : String) : Bool := strLeAux a.data b.data

/-- One step of insertion into a sorted list of strings. -/
def insertSorted (s : String) : List String → List String
  | [] => [s]
  | h :: t => if strLeb s h then s :: h :: t else h :: insertSorted s t

/-- Python `sorted` on a list of strings (lexicographic by code point).
Modelled by insertion sort; `sorted` is a comparison sort and agrees with any
correct sort on the resulting order (the claims involve no duplicate names,
so stability is not observable). -/
def pySorted (l : List String) : List String := l.foldr insertSorted []

/-- The Hardware Capability Expander: the `bits_to_names` call composed with
the `sorted(...)` applied to its result in `decode_hwcap`
(`", ".join(sorted(names1))`). -/
def expandHwcap (bits : Nat) (table : List (Nat × String)) : List String :=
  pySorted (bits_to_names bits table)

/-- Value of a little-endian byte sequence. -/
def leVal (bs : List Nat) : Nat := bs.foldr (fun b acc => b + 256 * acc) 0

/-- The `w` little-endian bytes of `v` (encoder used to build synthetic
buffers for the round-trip property). -/
def leBytes : Nat → Nat → List Nat
  | 0, _ => []
  | w + 1, v => v % 256 :: leBytes w (v / 256)

/-- A synthetic auxv buffer: each `(tag, value)` pair as two little-endian
words, followed by an `AT_NULL` terminator pair. -/
def encodeAuxv (w : Nat) (entries : List (Nat × Nat)) : List Nat :=
  entries.flatMap (fun e => leBytes w e.1 ++ leBytes w e.2) ++
    (leBytes w 0 ++ leBytes w 0)

/-- The decode loop of `parse_auxv`, fuel-indexed for structural recursion
(fuel only needs to dominate the buffer length).  Mirrors:
`for i in range(0, len(data), step): chunk = data[i:i+step];
 if len(chunk) < step: break; a_type, a_val = unpack(fmt, chunk);
 if a_type == 0: break; entries.append((a_type, a_val))`. -/
def parseAuxvGo (w : Nat) : Nat → List Nat → List (Nat × Nat)
  | 0, _ => []
  | fuel + 1, data =>
      if data.length < 2 * w then []
      else
        let chunk := data.take (2 * w)
        let t := leVal (chunk.take w)
        let v := leVal (chunk.drop w)
        if t = 0 then [] else (t, v) :: parseAuxvGo w fuel (data.drop (2 * w))

/-- Decode every complete `(tag, value)` stride of `data` with field width
`w`, stopping at the first `AT_NULL` tag or truncated tail. -/
def parsePairs (w : Nat) (data : List Nat) : List (Nat × Nat) :=
  parseAuxvGo w data.length data

/-- The word-size resolution at the top of `parse_auxv`:
aarch64/x86_64 → 8, i386/i686 → 4, anything else → the native
`ctypes.sizeof(ctypes.c_ulong)` of the invoking platform. -/
def resolveWordSize (arch : Option String) (native : Nat) : Nat :=
  if arch = some "aarch64" ∨ arch = some "x86_64" then 8
  else if arch = some "i386" ∨ arch = some "i686" then 4
  else native

/-- `parse_auxv(data, arch)` with the platform's native word size made an
explicit parameter.  `RuntimeError("Unsupported word size: %d")` is modelled
as the `Except.error` case. -/
def parse_auxv (data : List Nat) (arch : Option String) (native : Nat) :
    Except String (List (Nat × Nat)) :=
  let ul_size := resolveWordSize arch native
  if ul_size = 8 then .ok (parsePairs 8 data)
  else if ul_size = 4 then .ok (parsePairs 4 data)
  else .error ("Unsupported word size: " ++ toString ul_size)

/-! ### Auxv decoder lemmas -/

theorem leBytes_length (w v : Nat) : (leBytes w v).length = w := by
  induction w generalizing v with
  | zero => rfl
  | succ w ih => simp [leBytes, ih]

theorem leVal_leBytes {w v : Nat} (h : v < 256 ^ w) : leVal (leBytes w v) = v := by
  induction w generalizing v with
  | zero =>
      have : v = 0 := Nat.lt_one_iff.mp (by simpa using h)
      subst this; rfl
  | succ w ih =>
      have hdiv : v / 256 < 256 ^ w := by
        rw [Nat.div_lt_iff_lt_mul (by omega)]
        calc v < 256 ^ (w + 1) := h
          _ = 256 ^ w * 256 := by rw [Nat.pow_succ]
      simp only [leBytes, leVal, List.foldr_cons]
      have : leVal (leBytes w (v / 256)) = v / 256 := ih hdiv
      simp only [leVal] at this
      rw [this]
      omega

/-- Fuel irrelevance for the decode loop. -/
theorem parseAuxvGo_congr {w : Nat} (hw : 0 < w) :
    ∀ fuel1 fuel2 data, data.length ≤ fuel1 → data.length ≤ fuel2 →
      parseAuxvGo w fuel1 data = parseAuxvGo w fuel2 data := by
  intro fuel1
  induction fuel1 with
  | zero =>
      intro fuel2 data h1 h2
      have hdata : data = [] := List.length_eq_zero.mp (Nat.le_zero.mp h1)
      subst hdata
      cases fuel2 with
      | zero => rfl
      | succ fuel2 =>
          simp only [parseAuxvGo, List.length_nil]
          rw [if_pos (by omega)]
  | succ fuel1 ih =>
      intro fuel2 data h1 h2
      cases fuel2 with
      | zero =>
          have hdata : data = [] := List.length_eq_zero.mp (Nat.le_zero.mp h2)
          subst hdata
          simp only [parseAuxvGo, List.length_nil]
          rw [if_pos (by omega)]
      | succ fuel2 =>
          simp only [parseAuxvGo]
          by_cases hlen : data.length < 2 * w
          · rw [if_pos hlen, if_pos hlen]
          · rw [if_neg hlen, if_neg hlen]
            have hrec : (data.drop (2 * w)).length ≤ fuel1 := by
              simp only [List.length_drop]; omega
            have hrec2 : (data.drop (2 * w)).length ≤ fuel2 := by
              simp only [List.length_drop]; omega
            rw [ih fuel2 (data.drop (2 * w)) hrec hrec2]

/-- The one-stride unfolding of `parsePairs` (for positive field width). -/
theorem parsePairs_eq {w : Nat} (hw : 0 < w) (data : List Nat) :
    parsePairs w data =
      if data.length < 2 * w then []
      else if leVal ((data.take (2 * w)).take w) = 0 then []
      else (leVal ((data.take (2 * w)).take w), leVal ((data.take (2 * w)).drop w)) ::
        parsePairs w (data.drop (2 * w)) := by
  by_cases hlen : data.length < 2 * w
  · rw [if_pos hlen]
    cases hd : data.length with
    | zero =>
        have : data = [] := List.length_eq_zero.mp hd
        subst this; rfl
    | succ n =>
        unfold parsePairs
        rw [hd]
        simp only [parseAuxvGo]
        rw [if_pos (by omega)]
  · rw [if_neg hlen]
    unfold parsePairs
    cases hd : data.length with
    | zero => omega
    | succ n =>
        simp only [parseAuxvGo]
        rw [if_neg (by omega)]
        by_cases ht : leVal ((data.take (2 * w)).take w) = 0
        · rw [if_pos ht, if_pos ht]
        · rw [if_neg ht, if_neg ht]
          have hcong : parseAuxvGo w n (data.drop (2 * w)) =
              parseAuxvGo w (data.drop (2 * w)).length (data.drop (2 * w)) := by
            apply parseAuxvGo_congr hw
            · simp only [List.length_drop]; omega
            · exact Nat.le_refl _
          rw [hcong]

theorem strLeAux_total : ∀ as bs : List Char,
    strLeAux as bs = true ∨ strLeAux bs as = true := by
  intro as
  induction as with
  | nil => intro bs; exact Or.inl rfl
  | cons a as ih =>
      intro bs
      cases bs with
      | nil => exact Or.inr rfl
      | cons b bs =>
          simp only [strLeAux]
          rcases lt_trichotomy a b with hab | hab | hab
          · left; rw [if_pos hab]
          · subst hab
            simp only [if_neg (lt_irrefl a)]
            exact ih bs
          · right; rw [if_pos hab]

theorem strLeAux_trans : ∀ as bs cs : List Char,
    strLeAux as bs = true → strLeAux bs cs = true → strLeAux as cs = true := by
  intro as
  induction as with
  | nil => intro bs cs _ _; rfl
  | cons a as ih =>
      intro bs cs h1 h2
      cases bs with
      | nil => simp [strLeAux] at h1
      | cons b bs =>
          cases cs with
          | nil => simp [strLeAux] at h2
          | cons c cs =>
              simp only [strLeAux] at h1 h2 ⊢
              rcases lt_trichotomy a b with hab | hab | hab
              · rcases lt_trichotomy b c with hbc | hbc | hbc
                · rw [if_pos (lt_trans hab hbc)]
                · subst hbc; rw [if_pos hab]
                · rw [if_neg (not_lt_of_lt hbc), if_pos hbc] at h2
                  cases h2
              · subst hab
                rcases lt_trichotomy a c with hac | hac | hac
                · rw [if_pos hac]
                · subst hac
                  rw [if_neg (lt_irrefl a), if_neg (lt_irrefl a)] at h1 h2 ⊢
                  exact ih bs cs h1 h2
                · rw [if_neg (not_lt_of_lt hac), if_pos hac] at h2
                  cases h2
              · rw [if_neg (not_lt_of_lt hab), if_pos hab] at h1
                cases h1

theorem strLeb_total (a b : String) : strLeb a b = true ∨ strLeb b a = true :=
  strLeAux_total a.data b.data

theorem strLeb_trans {a b c : String} (h1 : strLeb a b = true)
    (h2 : strLeb b c = true) : strLeb a c = true :=
  strLeAux_trans a.data b.data c.data h1 h2

theorem mem_insertSorted {a s : String} {l : List String} :
    a ∈ insertSorted s l ↔ a = s ∨ a ∈ l := by
  induction l with
  | nil => simp [insertSorted]
  | cons h t ih =>
      simp only [insertSorted]
      by_cases hle : strLeb s h = true
      all_goals simp [hle, List.mem_cons, ih]
      all_goals tauto

theorem sorted_insertSorted {s : String} {l : List String}
    (hl : l.Pairwise (fun a b => strLeb a b = true)) :
    (insertSorted s l).Pairwise (fun a b => strLeb a b = true) := by
  induction l with
  | nil => simp [insertSorted]
  | cons h t ih =>
      rcases List.pairwise_cons.mp hl with ⟨hht, ht⟩
      simp only [insertSorted]
      by_cases hle : strLeb s h = true
      · rw [if_pos hle]
        refine List.pairwise_cons.mpr ⟨?_, hl⟩
        intro b hb
        rcases List.mem_cons.mp hb with rfl | hb
        · exact hle
        · exact strLeb_trans hle (hht b hb)
      · rw [if_neg hle]
        refine List.pairwise_cons.mpr ⟨?_, ih ht⟩
        intro b hb
        rcases mem_insertSorted.mp hb with h' | hb
        · rw [h']
          exact (strLeb_total s h).resolve_left hle
        · exact hht b hb

theorem mem_pySorted {a : String} {l : List String} :
    a ∈ pySorted l ↔ a ∈ l := by
  induction l with
  | nil => simp [pySorted]
  | cons h t ih =>
      simp only [pySorted, List.foldr_cons] at *
      rw [mem_insertSorted, ih, List.mem_cons]

theorem sorted_pySorted (l : List String) :
    (pySorted l).Pairwise (fun a b => strLeb a b = true) := by
  induction l with
  | nil => simp [pySorted]
  | cons h t ih =>
      simpa only [pySorted, List.foldr_cons] using sorted_insertSorted ih

/-- C6: the hardware-capability expander is a pure function of one bitmask
and one bit table: for every bitmask and table it returns exactly the names
whose bit position is set in the mask, lexically sorted; on the AArch64
primary table, a mask with exactly bits {1, 3, 22} set yields
["AES", "ASIMD", "SVE"]. -/
theorem C6_hwcap_expander :
    (∀ (bits : Nat) (table : List (Nat × String)) (name : String),
        name ∈ expandHwcap bits table ↔
          ∃ b, (b, name) ∈ table ∧ (bits >>> b) &&& 1 = 1) ∧
    (∀ (bits : Nat) (table : List (Nat × String)),
        (expandHwcap bits table).Pairwise (fun a b => strLeb a b = true)) ∧
    expandHwcap (2 ^ 1 + 2 ^ 3 + 2 ^ 22) AARCH64_HWCAP = ["AES", "ASIMD", "SVE"] := by
  refine ⟨?_, ?_, by decide⟩
  · intro bits table name
    rw [expandHwcap, mem_pySorted, bits_to_names, List.mem_map]
    constructor
    · rintro ⟨p, hp, rfl⟩
      rcases List.mem_filter.mp hp with ⟨hmem, hbit⟩
      exact ⟨p.1, hmem, of_decide_eq_true hbit⟩
    · rintro ⟨b, hmem, hbit⟩
      exact ⟨(b, name), List.mem_filter.mpr ⟨hmem, decide_eq_true hbit⟩, rfl⟩
  · intro bits table
    exact sorted_pySorted _

/-- Round-trip helper: decoding an encoded buffer with positive field width
recovers the entries. -/
theorem parsePairs_encode {w : Nat} (hw : 0 < w) :
    ∀ entries : List (Nat × Nat),
      (∀ e ∈ entries, e.1 ≠ 0 ∧ e.1 < 256 ^ w ∧ e.2 < 256 ^ w) →
      parsePairs w (encodeAuxv w entries) = entries := by
  intro entries
  induction entries with
  | nil =>
      intro _
      rw [parsePairs_eq hw]
      have hlen : (encodeAuxv w []).length = 2 * w := by
        simp only [encodeAuxv, List.flatMap_nil, List.nil_append,
          List.length_append, leBytes_length]
        omega
      rw [if_neg (by omega)]
      have htake : (encodeAuxv w []).take (2 * w) = encodeAuxv w [] :=
        List.take_of_length_le (by omega)
      rw [htake]
      have htag : (encodeAuxv w []).take w = leBytes w 0 := by
        simp only [encodeAuxv, List.flatMap_nil, List.nil_append]
        exact List.take_left' (leBytes_length w 0)
      rw [htag, leVal_leBytes (Nat.pos_pow_of_pos w (by omega))]
      simp
  | cons e rest ih =>
      intro h
      have hexp : encodeAuxv w (e :: rest) =
          (leBytes w e.1 ++ leBytes w e.2) ++ encodeAuxv w rest := by
        simp [encodeAuxv, List.flatMap_cons, List.append_assoc]
      have he := h e (List.mem_cons_self e rest)
      have hlenA : (leBytes w e.1 ++ leBytes w e.2).length = 2 * w := by
        simp [leBytes_length]; omega
      rw [hexp, parsePairs_eq hw]
      have hlen : ((leBytes w e.1 ++ leBytes w e.2) ++ encodeAuxv w rest).length =
          2 * w + (encodeAuxv w rest).length := by
        simp only [List.length_append, leBytes_length]
        omega
      rw [if_neg (by omega)]
      have htake2 : ((leBytes w e.1 ++ leBytes w e.2) ++ encodeAuxv w rest).take (2 * w) =
          leBytes w e.1 ++ leBytes w e.2 := List.take_left' hlenA
      have hdrop2 : ((leBytes w e.1 ++ leBytes w e.2) ++ encodeAuxv w rest).drop (2 * w) =
          encodeAuxv w rest := List.drop_left' hlenA
      rw [htake2, hdrop2]
      have htag : (leBytes w e.1 ++ leBytes w e.2).take w = leBytes w e.1 :=
        List.take_left' (leBytes_length w e.1)
      have hval : (leBytes w e.1 ++ leBytes w e.2).drop w = leBytes w e.2 :=
        List.drop_left' (leBytes_length w e.1)
      rw [htag, hval, leVal_leBytes he.2.1, leVal_leBytes he.2.2]
      rw [if_neg he.1]
      rw [ih (fun x hx => h x (List.mem_cons_of_mem e hx))]

/-- C3: for every word size in {4, 8}, encoding nonzero-tag in-range
`(tag, value)` pairs as consecutive little-endian words followed by an
AT_NULL pair and decoding yields exactly the original entries in order (the
terminator pair never appears in the output). -/
theorem C3_auxv_roundtrip (w : Nat) (hw : w = 4 ∨ w = 8)
    (entries : List (Nat × Nat))
    (h : ∀ e ∈ entries, e.1 ≠ 0 ∧ e.1 < 256 ^ w ∧ e.2 < 256 ^ w) :
    parsePairs w (encodeAuxv w entries) = entries :=
  parsePairs_encode (by rcases hw with rfl | rfl <;> omega) entries h

/-- C3 witness: a concrete two-entry round trip at word size 4. -/
theorem C3_auxv_roundtrip_witness :
    parsePairs 4 (encodeAuxv 4 [(6, 4096), (17, 257)]) = [(6, 4096), (17, 257)] :=
  C3_auxv_roundtrip 4 (Or.inl rfl) [(6, 4096), (17, 257)] (by decide)

/-- Appending less than one full stride never changes the decoded entries. -/
theorem parsePairs_append_short {w : Nat} (hw : 0 < w) :
    ∀ data tail : List Nat, (2 * w) ∣ data.length → tail.length < 2 * w →
      parsePairs w (data ++ tail) = parsePairs w data := by
  suffices H : ∀ n (data tail : List Nat), data.length = n → (2 * w) ∣ data.length →
      tail.length < 2 * w → parsePairs w (data ++ tail) = parsePairs w data by
    intro data tail hdvd htail
    exact H data.length data tail rfl hdvd htail
  intro n
  induction n using Nat.strong_induction_on with
  | _ n ih =>
      intro data tail hlen hdvd htail
      by_cases hsmall : data.length < 2 * w
      · have hz : data.length = 0 := Nat.eq_zero_of_dvd_of_lt hdvd hsmall
        have hdata : data = [] := List.length_eq_zero.mp hz
        subst hdata
        rw [List.nil_append, parsePairs_eq hw tail, if_pos htail,
          parsePairs_eq hw ([] : List Nat),
          if_pos (by simp only [List.length_nil]; omega)]
      · have hle : 2 * w ≤ data.length := Nat.le_of_not_lt hsmall
        have hc1 : ¬((data ++ tail).length < 2 * w) := by
          simp only [List.length_append]; omega
        rw [parsePairs_eq hw (data ++ tail), parsePairs_eq hw data,
          if_neg hc1, if_neg hsmall]
        have htake : (data ++ tail).take (2 * w) = data.take (2 * w) :=
          List.take_append_of_le_length hle
        have hdrop : (data ++ tail).drop (2 * w) = data.drop (2 * w) ++ tail :=
          List.drop_append_of_le_length hle
        rw [htake, hdrop]
        by_cases ht : leVal ((data.take (2 * w)).take w) = 0
        · rw [if_pos ht, if_pos ht]
        · rw [if_neg ht, if_neg ht]
          have hrec : parsePairs w (data.drop (2 * w) ++ tail) =
              parsePairs w (data.drop (2 * w)) := by
            apply ih (data.drop (2 * w)).length ?_ _ tail rfl ?_ htail
            · simp only [List.length_drop]
              omega
            · simp only [List.length_drop]
              exact Nat.dvd_sub (by omega) hdvd (Nat.dvd_refl _)
          rw [hrec]

/-- C4: for every byte buffer made of whole strides and every supported word
size, appending trailing bytes that form less than one complete (tag, value)
stride decodes to exactly the same entry list as the buffer without them, and
the decode returns normally (the truncated tail is discarded silently, never
an error). -/
theorem C4_truncation (w : Nat) (hw : w = 4 ∨ w = 8)
    (data tail : List Nat) (hdata : (2 * w) ∣ data.length)
    (htail : tail.length < 2 * w) :
    parsePairs w (data ++ tail) = parsePairs w data ∧
    (∀ (arch : Option String) (native : Nat),
      resolveWordSize arch native = w →
      parse_auxv (data ++ tail) arch native = .ok (parsePairs w data)) := by
  have hwpos : 0 < w := by rcases hw with rfl | rfl <;> omega
  have hmain := parsePairs_append_short hwpos data tail hdata htail
  refine ⟨hmain, ?_⟩
  intro arch native hres
  rcases hw with rfl | rfl
  · simp only [parse_auxv, hres]
    norm_num
    exact hmain
  · simp only [parse_auxv, hres]
    norm_num
    exact hmain

/-- C4 witness: one whole-stride buffer at word size 8 with a 3-byte tail. -/
theorem C4_truncation_witness :
    parsePairs 8 (encodeAuxv 8 [(6, 4096)] ++ [1, 2, 3]) =
      parsePairs 8 (encodeAuxv 8 [(6, 4096)]) ∧
    parse_auxv (encodeAuxv 8 [(6, 4096)] ++ [1, 2, 3]) (some "aarch64") 0 =
      .ok (parsePairs 8 (encodeAuxv 8 [(6, 4096)])) := by
  have h := C4_truncation 8 (Or.inr rfl) (encodeAuxv 8 [(6, 4096)]) [1, 2, 3]
    (by decide) (by decide)
  exact ⟨h.1, h.2 (some "aarch64") 0 (by decide)⟩

/-- C1 counterexample: with the unsupported architecture hint "riscv64" on a
platform whose native word size is 8, `parse_auxv` does not raise — it
decodes the buffer with the native word size and produces an entry. -/
theorem C1_counterexample :
    parse_auxv (encodeAuxv 8 [(6, 4096)]) (some "riscv64") 8 =
      Except.ok [(6, 4096)] := by rfl

/-- C1 amended: an unsupported architecture hint does not raise
ConfigurationError; the word-size resolution silently falls back to the
platform's native word size, and the InvalidWordSize RuntimeError is raised
only when that native size is itself neither 4 nor 8. -/
theorem C1_unsupported_arch (arch : Option String) (native : Nat)
    (data : List Nat) (h : ∀ a ∈ SUPPORTED_ARCH_LIST, arch ≠ some a) :
    resolveWordSize arch native = native ∧
    (native ≠ 4 → native ≠ 8 →
      parse_auxv data arch native =
        .error ("Unsupported word size: " ++ toString native)) ∧
    (native = 8 → parse_auxv data arch native = .ok (parsePairs 8 data)) ∧
    (native = 4 → parse_auxv data arch native = .ok (parsePairs 4 data)) := by
  have h1 : arch ≠ some "aarch64" := h "aarch64" (by decide)
  have h2 : arch ≠ some "x86_64" := h "x86_64" (by decide)
  have h3 : arch ≠ some "i386" := h "i386" (by decide)
  have h4 : arch ≠ some "i686" := h "i686" (by decide)
  have hres : resolveWordSize arch native = native := by
    rw [resolveWordSize, if_neg (by tauto), if_neg (by tauto)]
  refine ⟨hres, ?_, ?_, ?_⟩
  · intro hn4 hn8
    rw [parse_auxv]
    simp only [hres]
    rw [if_neg hn8, if_neg hn4]
  · intro hn
    subst hn
    simp [parse_auxv, hres]
  · intro hn
    subst hn
    simp [parse_auxv, hres]

/-- C1 witness: concrete unsupported hint "riscv64", native size 3 errors and
native size 8 decodes. -/
theorem C1_unsupported_arch_witness :
    parse_auxv [] (some "riscv64") 3 =
      .error ("Unsupported word size: " ++ toString 3) ∧
    parse_auxv [] (some "riscv64") 8 = .ok (parsePairs 8 []) := by
  have h3 := C1_unsupported_arch (some "riscv64") 3 [] (by decide)
  have h8 := C1_unsupported_arch (some "riscv64") 8 [] (by decide)
  exact ⟨h3.2.1 (by decide) (by decide), h8.2.2.1 rfl⟩

/-! ### Classifier lemmas -/

theorem percentage_zero (t : Nat) : percentage 0 t = 0 := by
  unfold percentage
  split
  · simp
  · rfl

/-- An instruction line contains a hexadecimal digit (from the `[0-9a-f]+`
group of the discriminator). -/
theorem insn_has_hex {l : List Char} (h : matchPre re_insn l = true) :
    ∃ c, c ∈ l ∧ ("0123456789abcdef" : String).data.contains c = true := by
  rw [matchPre_iff] at h
  obtain ⟨pre, post, rfl, hm⟩ := h
  obtain ⟨u, rest, hpre, hws, hrest⟩ := rmatch_seq_iff.mp hm
  obtain ⟨v, w', hrest2, hhexplus, hcolon⟩ := rmatch_seq_iff.mp hrest
  obtain ⟨v1, v2, hv, hhex1, hhex2⟩ := rmatch_seq_iff.mp hhexplus
  obtain ⟨c, hc1, hc2⟩ := rmatch_cls_iff.mp hhex1
  refine ⟨c, ?_, hc2⟩
  subst hpre hrest2 hv hc1
  simp [List.mem_append]

/-- An instruction line is matched by the unanchored `.` pattern used for the
total instruction count. -/
theorem insn_search_dot {l : List Char} (h : matchPre re_insn l = true) :
    reSearch dotRE l = true := by
  obtain ⟨c, hcl, hhex⟩ := insn_has_hex h
  have hne : c ≠ '\n' := by
    intro hEq
    subst hEq
    exact absurd hhex (by decide)
  obtain ⟨x, y, rfl⟩ := List.append_of_mem hcl
  rw [reSearch_iff]
  exact ⟨x, [c], y, by simp, RMatch.cls (by simp [bne_iff_ne, hne])⟩

/-- Every category count is bounded by the total instruction count. -/
theorem count_le_total (disasm : String) (p : RE) :
    count_instructions disasm p ≤ totalInstructions disasm := by
  apply List.countP_mono_left
  intro line _ hline
  rw [Bool.and_eq_true] at hline ⊢
  exact ⟨hline.1, insn_search_dot hline.1⟩

theorem percentage_bounds {c t : Nat} (h : c ≤ t) :
    0 ≤ percentage c t ∧ percentage c t ≤ 100 := by
  unfold percentage
  split
  · rename_i ht
    have ht' : (0 : ℚ) < t := by exact_mod_cast ht
    constructor
    · positivity
    · rw [div_le_iff₀ ht']
      have hc : (c : ℚ) ≤ t := by exact_mod_cast h
      nlinarith
  · norm_num

/-- C8: a stream with no instruction line (in particular the empty stream)
yields total count 0, and count 0 with percentage 0.0 for every category. -/
theorem C8_empty_stream (disasm : String)
    (h : ∀ line ∈ splitOnNl disasm.data, matchPre re_insn line = false) :
    totalInstructions disasm = 0 ∧
    ∀ pr ∈ INSPECT_ARRAY,
      count_instructions disasm pr.2 = 0 ∧
      percentage (count_instructions disasm pr.2) (totalInstructions disasm) = 0 := by
  have hc : ∀ p : RE, count_instructions disasm p = 0 := by
    intro p
    rw [count_instructions, List.countP_eq_zero]
    intro line hline
    rw [Bool.and_eq_true]
    rintro ⟨h1, _⟩
    rw [h line hline] at h1
    cases h1
  refine ⟨hc dotRE, ?_⟩
  intro pr _
  refine ⟨hc pr.2, ?_⟩
  rw [hc pr.2, percentage_zero]

/-- C8 witness: the empty stream. -/
theorem C8_empty_stream_witness :
    totalInstructions "" = 0 ∧
    count_instructions "" re_asimddp = 0 ∧
    percentage (count_instructions "" re_asimddp) (totalInstructions "") = 0 := by
  have h := C8_empty_stream "" (by decide)
  have h2 := h.2 ("asimddp", re_asimddp)
    (List.Mem.tail _ (List.Mem.tail _ (List.Mem.tail _ (List.Mem.head _))))
  exact ⟨h.1, h2.1, h2.2⟩

/-- C10: for every instruction stream and every registry category, the match
count is at most the total instruction count, and the reported percentage
lies in [0, 100]. -/
theorem C10_percentage_bounds (disasm : String) :
    ∀ pr ∈ INSPECT_ARRAY,
      count_instructions disasm pr.2 ≤ totalInstructions disasm ∧
      0 ≤ percentage (count_instructions disasm pr.2) (totalInstructions disasm) ∧
      percentage (count_instructions disasm pr.2) (totalInstructions disasm) ≤ 100 := by
  intro pr _
  have hle := count_le_total disasm pr.2
  have hb := percentage_bounds hle
  exact ⟨hle, hb.1, hb.2⟩

/-- C10 witness: concrete stream and category. -/
theorem C10_percentage_bounds_witness :
    count_instructions "  401000: sdot v0.4s" re_asimddp ≤
      totalInstructions "  401000: sdot v0.4s" ∧
    0 ≤ percentage (count_instructions "  401000: sdot v0.4s" re_asimddp)
        (totalInstructions "  401000: sdot v0.4s") ∧
    percentage (count_instructions "  401000: sdot v0.4s" re_asimddp)
        (totalInstructions "  401000: sdot v0.4s") ≤ 100 :=
  C10_percentage_bounds "  401000: sdot v0.4s" ("asimddp", re_asimddp)
    (List.Mem.tail _ (List.Mem.tail _ (List.Mem.tail _ (List.Mem.head _))))

/-- C9: "sha3" and "svesha3" carry textually identical patterns, so their
counts agree on every stream; and the "sha512" pattern is one of the two
alternatives of the "sha2" pattern, so every line counted for sha512 is also
counted for sha2 — category counts overlap and do not partition the stream. -/
theorem C9_overlapping_categories :
    (∀ disasm : String,
        count_instructions disasm re_sha3 = count_instructions disasm re_svesha3) ∧
    (∀ line : String, matchPre re_insn line.data = true →
        reSearch re_sha512 line.data = true → reSearch re_sha2 line.data = true) := by
  constructor
  · intro disasm
    rfl
  · intro line _ hsearch
    rw [reSearch_iff] at hsearch ⊢
    obtain ⟨u, m, v, heq, hm⟩ := hsearch
    refine ⟨u, m, v, heq, ?_⟩
    obtain ⟨mw, mg, hmeq, hws, hg⟩ := rmatch_seq_iff.mp hm
    subst hmeq
    exact RMatch.seq hws (RMatch.altR hg)

/-- C9 witness: a concrete sha512 instruction line is counted for sha2. -/
theorem C9_overlapping_categories_witness :
    reSearch re_sha2 ("  401000: sha512h q0, q1, v2.2d").data = true :=
  C9_overlapping_categories.2 "  401000: sha512h q0, q1, v2.2d"
    (by decide) (by decide)

/-- C2 counterexample: the instruction lines "  401000: nop" and
"  fadd00: nop" differ only in their leading hexadecimal address field, yet
the "asimd" rule matches the second (its address spells the fadd mnemonic)
and not the first. -/
theorem C2_counterexample :
    matchPre re_insn ("  401000: nop").data = true ∧
    matchPre re_insn ("  fadd00: nop").data = true ∧
    ("asimd", re_asimd) ∈ INSPECT_ARRAY ∧
    reSearch re_asimd ("  fadd00: nop").data = true ∧
    reSearch re_asimd ("  401000: nop").data = false ∧
    count_instructions "  fadd00: nop" re_asimd = 1 ∧
    count_instructions "  401000: nop" re_asimd = 0 :=
  ⟨by decide, by decide, List.Mem.head _, by decide, by decide, by decide,
   by decide⟩

/-- C2 amended: every rule anchors on a whitespace class immediately before
its mnemonic alternatives, but each rule is tested against the entire line,
address field included; a hexadecimal address whose digits spell an all-hex
mnemonic preceded by whitespace (such as fadd00) is matched by the
corresponding rule, so two instruction lines differing only in the address
field are not in general matched identically. -/
theorem C2_anchoring :
    (∀ pr ∈ INSPECT_ARRAY, ∃ tail, pr.2 = RE.seq wsRE tail) ∧
    count_instructions "  fadd00: nop" re_asimd = 1 ∧
    count_instructions "  401000: nop" re_asimd = 0 := by
  refine ⟨?_, by decide, by decide⟩
  intro pr h
  fin_cases h <;> exact ⟨_, rfl⟩

/-- C2 witness: the first registry rule is whitespace-anchored. -/
theorem C2_anchoring_witness : ∃ tail, re_asimd = RE.seq wsRE tail :=
  C2_anchoring.1 ("asimd", re_asimd) (List.Mem.head _)

/-- The key list of the per-category results is input-independent. -/
theorem extensionResults_keys (disasm : String) :
    (extensionResults disasm).map Prod.fst = extensionKeys := by
  rw [extensionResults, extensionKeys]
  generalize INSPECT_ARRAY = l
  induction l with
  | nil => rfl
  | cons p t ih =>
      simp only [List.flatMap_cons, List.map_append, ih, List.map_cons,
        List.map_nil]

/-- C5: the detected and undetected category lists partition the registry's
category set, and the per-category output key list is the same for every
input; a zero-match category still appears, with count 0 and percentage 0.0. -/
theorem C5_report_invariants (disasm : String) :
    (∀ name, (name ∈ detectedList disasm ∨ name ∈ undetectedList disasm) ↔
        name ∈ categoryNames) ∧
    (∀ name, ¬(name ∈ detectedList disasm ∧ name ∈ undetectedList disasm)) ∧
    (extensionResults disasm).map Prod.fst = extensionKeys ∧
    (∀ pr ∈ INSPECT_ARRAY, count_instructions disasm pr.2 = 0 →
      (pr.1 ++ "_instructions", (0 : ℚ)) ∈ extensionResults disasm ∧
      (pr.1 ++ "_instructions_percentage", (0 : ℚ)) ∈ extensionResults disasm) := by
  refine ⟨?_, ?_, extensionResults_keys disasm, ?_⟩
  · intro name
    simp only [detectedList, undetectedList, categoryNames, List.mem_map,
      List.mem_filter]
    constructor
    · rintro (⟨p, ⟨hp, _⟩, rfl⟩ | ⟨p, ⟨hp, _⟩, rfl⟩) <;> exact ⟨p, hp, rfl⟩
    · rintro ⟨p, hp, rfl⟩
      by_cases hq : 0 < count_instructions disasm p.2
      · exact Or.inl ⟨p, ⟨hp, decide_eq_true hq⟩, rfl⟩
      · exact Or.inr ⟨p, ⟨hp, by rw [decide_eq_false hq]; rfl⟩, rfl⟩
  · rintro name ⟨h1, h2⟩
    simp only [detectedList, undetectedList, List.mem_map, List.mem_filter]
      at h1 h2
    obtain ⟨p1, ⟨hp1, hq1⟩, he1⟩ := h1
    obtain ⟨p2, ⟨hp2, hq2⟩, he2⟩ := h2
    have hnodup : (INSPECT_ARRAY.map Prod.fst).Nodup := by decide
    have hp12 : p1 = p2 :=
      List.inj_on_of_nodup_map hnodup hp1 hp2 (he1.trans he2.symm)
    subst hp12
    rw [hq1] at hq2
    simp at hq2
  · intro pr hpr h0
    constructor
    · rw [extensionResults]
      refine List.mem_flatMap.mpr ⟨pr, hpr, ?_⟩
      simp [h0]
    · rw [extensionResults]
      refine List.mem_flatMap.mpr ⟨pr, hpr, ?_⟩
      simp [h0, percentage_zero]

/-- C5 witness: at the empty input, "asimd" is not in both partitions, and
its zero-count keys are in the output. -/
theorem C5_report_invariants_witness :
    ¬("asimd" ∈ detectedList "" ∧ "asimd" ∈ undetectedList "") ∧
    ("asimd_instructions", (0 : ℚ)) ∈ extensionResults "" :=
  ⟨(C5_report_invariants "").2.1 "asimd",
   ((C5_report_invariants "").2.2.2 ("asimd", re_asimd) (List.Mem.head _)
      (by decide)).1⟩

/-- C7: on the single instruction line `  401000: sdot v0.4s, v1.16b, v2.16b`
the classifier attributes exactly one match to the category "asimddp" and
zero matches to every other category of the registry. -/
theorem C7_sdot_classification :
    count_instructions "  401000: sdot v0.4s, v1.16b, v2.16b" re_asimddp = 1 ∧
    ∀ pr ∈ INSPECT_ARRAY, pr.1 ≠ "asimddp" →
      count_instructions "  401000: sdot v0.4s, v1.16b, v2.16b" pr.2 = 0 := by
  constructor
  · decide
  · decide

/-- C7 witness: the unrelated "asimd" category counts zero on that line. -/
theorem C7_sdot_classification_witness :
    count_instructions "  401000: sdot v0.4s, v1.16b, v2.16b" re_asimd = 0 :=
  C7_sdot_classification.2 ("asimd", re_asimd) (List.Mem.head _) (by decide)

end Anicet
